import Mathlib

/-!
Verification of the vcpkg CI-baseline parser and applier.

The repository provides the public header `include/vcpkg/ci-baseline.h` and
the test suite `src/vcpkg-test/ci-baseline.cpp`.  The implementations of
`parse_ci_baseline`, `parse_and_apply_ci_baseline` and
`ExclusionPredicate::operator()` are not part of the provided sources, so they
are modelled here from the specification (grammar, error policy, applier
algorithm), with every behaviour that the provided test suite pins down
(error kinds, line/column numbers, fail-fast emptiness, trailing-comment
tolerance, applier results) reproduced exactly.

Text is modelled as `List Char`.  Machine strings (`port_name`, triplet
canonical names) are modelled as Lean `String`s built from the parsed
character lists.
-/

namespace CiBaseline

/-- Character class for spaces and tabs, the whitespace that may separate
tokens inside a single line (the parser's skip_tabs_spaces). -/
def isLineWs (c : Char) : Bool :=
  c = ' ' || c = '\t'

/-- Lowercase ASCII letter test, the required first character of a port or
triplet name. -/
def isLowerAlpha (c : Char) : Bool :=
  'a' ≤ c && c ≤ 'z'

/-- ASCII digit test. -/
def isAsciiDigit (c : Char) : Bool :=
  '0' ≤ c && c ≤ '9'

/-- Identifier character of port and triplet names: lowercase letters,
digits and hyphen.  This is also the character class used to delimit the
state word on a word boundary. -/
def isIdentChar (c : Char) : Bool :=
  isLowerAlpha c || isAsciiDigit c || c = '-'

/-- The two explicit baseline states; a missing record means the implicit
default state pass. -/
inductive CiBaselineState where
  | Fail
  | Skip
deriving DecidableEq, Repr

/-- Modelled from the header `CiBaselineLine`: one parsed record.  The
triplet is opaque to this core and kept as its canonical-name string. -/
structure CiBaselineLine where
  port_name : String
  triplet : String
  state : CiBaselineState
deriving DecidableEq, Repr

/-- The kind of a fatal parse diagnostic, one constructor per message the
grammar can emit. -/
inductive ErrKind where
  | expectedColon
  | expectedPortName
  | expectedTripletName
  | expectedEquals
  | expectedFailOrSkip
  | unrecognizable
deriving DecidableEq, Repr

/-- A parse diagnostic: origin label, 1-based row, 1-based column, and the
message kind. -/
structure Diag where
  origin : String
  row : Nat
  col : Nat
  kind : ErrKind
deriving DecidableEq, Repr

/-- Modelled from the spec: the diagnostics accumulator `ParseMessages`,
holding at most one fatal error and a (structurally present but unused)
warning channel. -/
structure ParseMessages where
  error : Option Diag
  warnings : List Diag
deriving DecidableEq, Repr

/-- Outcome of parsing one source line: no record (blank or full-line
comment), a record, or a fatal error at a 0-based character index. -/
inductive LineOut where
  | blank
  | record (r : CiBaselineLine)
  | err (idx : Nat) (kind : ErrKind)
deriving DecidableEq, Repr

/-- Modelled from the spec: one step of the 1-based column tracking of the
character cursor.  A tab advances the column to the next tab stop (the next
multiple of 8, plus one), as the test at src/vcpkg-test/ci-baseline.cpp:240
pins down (column 21 after three spaces, a tab and twelve characters);
every other character advances the column by one. -/
def colStep (c : Char) (col : Nat) : Nat :=
  if c = '\t' then (col + 7) / 8 * 8 + 1 else col + 1

/-- Column accumulator: fold `colStep` over the first `i` characters of the
line starting from column `col`. -/
def columnAux : List Char → Nat → Nat → Nat
  | _, 0, col => col
  | [], _ + 1, col => col
  | c :: cs, i + 1, col => columnAux cs i (colStep c col)

/-- The 1-based column of the 0-based character index `i` in line `l`. -/
def columnOfIndex (l : List Char) (i : Nat) : Nat :=
  columnAux l i 1

/-- The characters of the state word "fail". -/
def failWord : List Char := ['f', 'a', 'i', 'l']

/-- The characters of the state word "skip". -/
def skipWord : List Char := ['s', 'k', 'i', 'p']

/-- Modelled from the spec: the stage of the record-line parser that runs
right after the '=' separator, at character index `i7` with remaining line
content `r7` (the parsed port and triplet characters are carried along).
It skips tabs and spaces, reads the maximal identifier-character word and
requires it to be exactly "fail" or "skip" (maximal munch realises the word
boundary), then skips trailing tabs and spaces and requires the line to end
or a '#' comment to follow; any other trailing content is the fatal
"unrecognizable baseline entry" error.  A trailing '#' comment after a
complete record is accepted, as the test at
src/vcpkg-test/ci-baseline.cpp:279 pins down. -/
def parseAfterEq (port trip : List Char) (i7 : Nat) (r7 : List Char) : LineOut :=
  let i8 := i7 + (r7.takeWhile isLineWs).length
  let r8 := r7.dropWhile isLineWs
  let w := r8.takeWhile isIdentChar
  if w = failWord ∨ w = skipWord then
    let st := if w = failWord then CiBaselineState.Fail else CiBaselineState.Skip
    let i9 := i8 + w.length
    let r9 := r8.dropWhile isIdentChar
    let i10 := i9 + (r9.takeWhile isLineWs).length
    let r10 := r9.dropWhile isLineWs
    match r10 with
    | [] => .record ⟨String.mk port, String.mk trip, st⟩
    | c :: _ =>
      if c = '#' then .record ⟨String.mk port, String.mk trip, st⟩
      else .err i10 .unrecognizable
  else .err i8 .expectedFailOrSkip

/-- Modelled from the spec: the stage of the record-line parser that runs
right after the triplet name, at character index `i5` with remaining line
content `r5`.  It skips tabs and spaces and requires the '=' separator. -/
def parseAfterTriplet (port trip : List Char) (i5 : Nat) (r5 : List Char) : LineOut :=
  let i6 := i5 + (r5.takeWhile isLineWs).length
  let r6 := r5.dropWhile isLineWs
  match r6 with
  | [] => .err i6 .expectedEquals
  | c :: r7 =>
    if c = '=' then parseAfterEq port trip (i6 + 1) r7
    else .err i6 .expectedEquals

/-- Modelled from the spec: the stage of the record-line parser that runs
right after the ':' separator, at character index `i3` with remaining line
content `r3`.  It skips tabs and spaces and reads the triplet name, whose
first character must be a lowercase letter. -/
def parseAfterColon (port : List Char) (i3 : Nat) (r3 : List Char) : LineOut :=
  let i4 := i3 + (r3.takeWhile isLineWs).length
  let r4 := r3.dropWhile isLineWs
  match r4.takeWhile isIdentChar with
  | [] => .err i4 .expectedTripletName
  | t0 :: _ =>
    if ¬ isLowerAlpha t0 then .err i4 .expectedTripletName
    else
      let trip := r4.takeWhile isIdentChar
      parseAfterTriplet port trip (i4 + trip.length) (r4.dropWhile isIdentChar)

/-- Modelled from the spec: parse a record starting at character index `i0`
with remaining line content `r0` (leading whitespace already skipped, `r0`
neither empty nor a comment).  It reads the port name, whose first character
must be a lowercase letter, skips tabs and spaces and requires the ':'
separator. -/
def parseRecordStart (i0 : Nat) (r0 : List Char) : LineOut :=
  match r0.takeWhile isIdentChar with
  | [] => .err i0 .expectedPortName
  | p0 :: _ =>
    if ¬ isLowerAlpha p0 then .err i0 .expectedPortName
    else
      let port := r0.takeWhile isIdentChar
      let i1 := i0 + port.length
      let r1 := r0.dropWhile isIdentChar
      let i2 := i1 + (r1.takeWhile isLineWs).length
      let r2 := r1.dropWhile isLineWs
      match r2 with
      | [] => .err i2 .expectedColon
      | c :: r3 =>
        if c = ':' then parseAfterColon port (i2 + 1) r3
        else .err i2 .expectedColon

/-- Modelled from the spec: parse one source line of `parse_ci_baseline`
(the implementation is not among the provided sources).  The line grammar is
`WS* (comment | record | blank)` with
`record := package-name WS* ':' WS* config-name WS* '=' WS* state-word WS*
trailing-comment?`; the first malformed token yields an error carrying its
0-based character index. -/
def parseLine (l : List Char) : LineOut :=
  let i0 := (l.takeWhile isLineWs).length
  let r0 := l.dropWhile isLineWs
  match r0 with
  | [] => .blank
  | c0 :: _ =>
    if c0 = '#' then .blank
    else parseRecordStart i0 r0

/-- Split a character sequence into its lines at newline characters; a text
with `n` newlines has `n + 1` lines (a trailing newline contributes a final
empty line). -/
def splitLines : List Char → List (List Char)
  | [] => [[]]
  | c :: cs =>
    if c = '\n' then [] :: splitLines cs
    else
      match splitLines cs with
      | [] => [[c]]
      | l :: ls => (c :: l) :: ls

/-- Modelled from the spec: the line-driver loop of `parse_ci_baseline`.
Lines are processed in order from 1-based row `row`; blank and comment lines
are skipped, records are accumulated in order, and the first erroring line
aborts the parse with an empty record sequence and a single fatal
diagnostic (fail-fast, no warnings). -/
def goLines (origin : String) : List (List Char) → Nat → List CiBaselineLine × ParseMessages
  | [], _ => ([], ⟨none, []⟩)
  | l :: ls, row =>
    match parseLine l with
    | .blank => goLines origin ls (row + 1)
    | .err i k => ([], ⟨some ⟨origin, row, columnOfIndex l i, k⟩, []⟩)
    | .record r =>
      match goLines origin ls (row + 1) with
      | (rs, ⟨none, ws⟩) => (r :: rs, ⟨none, ws⟩)
      | (_, m) => ([], m)

/-- Modelled from the spec: `parse_ci_baseline(text, origin, messages)` (its
implementation is not among the provided sources; the grammar, the fail-fast
error policy and the diagnostic positions follow the specification and the
pinned behaviour of src/vcpkg-test/ci-baseline.cpp).  Returns the record
sequence together with the filled diagnostics accumulator. -/
def parse_ci_baseline (text : List Char) (origin : String) :
    List CiBaselineLine × ParseMessages :=
  goLines origin (splitLines text) 1

/-- Modelled from the header `PackageSpec`: a (package name, triplet) pair. -/
structure PackageSpec where
  name : String
  triplet : String
deriving DecidableEq, Repr

/-- Strict ordering on package specs: by package name, then by triplet. -/
def specLt (a b : PackageSpec) : Prop :=
  a.name < b.name ∨ (a.name = b.name ∧ a.triplet < b.triplet)

instance (a b : PackageSpec) : Decidable (specLt a b) := by
  unfold specLt; infer_instance

/-- Sorted-set insertion of a package spec into a strictly sorted list
(the `SortedVector` result set of the applier): duplicates collapse. -/
def insertSpec (x : PackageSpec) : List PackageSpec → List PackageSpec
  | [] => [x]
  | y :: ys =>
    if x = y then y :: ys
    else if specLt x y then x :: y :: ys
    else y :: insertSpec x ys

/-- Sorted-set insertion of a string into a strictly sorted list (the
`SortedVector<std::string>` exclusion set): idempotent on duplicates. -/
def insertStr (x : String) : List String → List String
  | [] => [x]
  | y :: ys =>
    if x = y then y :: ys
    else if x < y then x :: y :: ys
    else y :: insertStr x ys

/-- Modelled from the header `TripletExclusions`: one tracked configuration
with its set of excluded packages (strictly sorted list). -/
structure TripletExclusions where
  triplet : String
  exclusions : List String
deriving DecidableEq, Repr

/-- Modelled from the header `ExclusionsMap`: the caller-owned ordered table
of tracked configurations. -/
structure ExclusionsMap where
  triplets : List TripletExclusions
deriving DecidableEq, Repr

/-- Whether a configuration is tracked by the table. -/
def tracked (m : ExclusionsMap) (t : String) : Bool :=
  m.triplets.any fun e => e.triplet = t

/-- Modelled from the spec: insert a package into the exclusion set of the
first table entry for triplet `t` (the entry is unique by the table
invariant); entries for other triplets are untouched. -/
def applySkip (t p : String) : List TripletExclusions → List TripletExclusions
  | [] => []
  | e :: es =>
    if e.triplet = t then { e with exclusions := insertStr p e.exclusions } :: es
    else e :: applySkip t p es

/-- Modelled from the spec: the per-record step of the applier.  A record
whose configuration is untracked is ignored; a tracked Fail record inserts
its pair into the result set; a tracked Skip record inserts its package into
that entry's exclusion set. -/
def applyLine (acc : ExclusionsMap × List PackageSpec) (l : CiBaselineLine) :
    ExclusionsMap × List PackageSpec :=
  if tracked acc.1 l.triplet then
    match l.state with
    | .Fail => (acc.1, insertSpec ⟨l.port_name, l.triplet⟩ acc.2)
    | .Skip => (⟨applySkip l.triplet l.port_name acc.1.triplets⟩, acc.2)
  else acc

/-- Modelled from the spec: `parse_and_apply_ci_baseline(lines, map)` (its
implementation is not among the provided sources).  Folds the records in
sequence order over the caller's exclusion table, returning the sorted
expected-failure set together with the mutated table. -/
def parse_and_apply_ci_baseline (lines : List CiBaselineLine) (m : ExclusionsMap) :
    List PackageSpec × ExclusionsMap :=
  let r := lines.foldl applyLine (m, [])
  (r.2, r.1)

/-- Modelled from the header and spec: `ExclusionPredicate` — true iff the
configuration is tracked in the table and the package is a member of that
entry's exclusion set.  It is a pure read: the table is not modified. -/
def ExclusionPredicate (m : ExclusionsMap) (s : PackageSpec) : Bool :=
  m.triplets.any fun e => e.triplet = s.triplet && e.exclusions.contains s.name

/-- The record produced by one line, if any (none for blank and comment
lines and for erroring lines). -/
def lineRecord (l : List Char) : Option CiBaselineLine :=
  match parseLine l with
  | .record r => some r
  | _ => none

/-- Whether one line is malformed (parsing it raises a fatal error). -/
def lineErr (l : List Char) : Bool :=
  match parseLine l with
  | .err _ _ => true
  | _ => false

/-- Whether every character of a line is a space or tab (a blank line). -/
def isBlankLine (l : List Char) : Bool :=
  l.all isLineWs

/-- Whether the first character of a line after leading spaces and tabs is
'#' (a full-line comment). -/
def isCommentLine (l : List Char) : Bool :=
  match l.dropWhile isLineWs with
  | c :: _ => c = '#'
  | [] => false

/-- A well-formed port or triplet name: nonempty, first character a
lowercase letter, every character a lowercase letter, digit or hyphen. -/
def validNameChars : List Char → Bool
  | [] => false
  | c :: cs => isLowerAlpha c && (c :: cs).all isIdentChar

/-- The package names of the Skip records for configuration `t`, in record
order. -/
def skipPorts (lines : List CiBaselineLine) (t : String) : List String :=
  lines.filterMap fun l =>
    if l.state = CiBaselineState.Skip ∧ l.triplet = t then some l.port_name else none

/-- The expected-failure pairs contributed by a record sequence against the
tracked-configuration entries `es`, in record order. -/
def failSpecs (lines : List CiBaselineLine) (es : List TripletExclusions) :
    List PackageSpec :=
  lines.filterMap fun l =>
    if l.state = CiBaselineState.Fail ∧ (es.any fun e => e.triplet = l.triplet) = true then
      some ⟨l.port_name, l.triplet⟩
    else none

end CiBaseline

namespace CiBaseline

theorem takeWhile_append_of_all (p : Char → Bool) (xs ys : List Char)
    (h : ∀ x ∈ xs, p x = true) :
    (xs ++ ys).takeWhile p = xs ++ ys.takeWhile p := by
  induction xs with
  | nil => simp
  | cons a l ih =>
    simp only [List.cons_append, List.takeWhile_cons, h a (by simp),
      ih fun x hx => h x (by simp [hx])]
    simp

theorem dropWhile_append_of_all (p : Char → Bool) (xs ys : List Char)
    (h : ∀ x ∈ xs, p x = true) :
    (xs ++ ys).dropWhile p = ys.dropWhile p := by
  induction xs with
  | nil => simp
  | cons a l ih =>
    simp only [List.cons_append, List.dropWhile_cons, h a (by simp), if_true]
    exact ih fun x hx => h x (by simp [hx])

theorem splitLines_ne_nil (cs : List Char) : splitLines cs ≠ [] := by
  induction cs with
  | nil => simp [splitLines]
  | cons c cs ih =>
    simp only [splitLines]
    split
    · simp
    · split
      · simp
      · simp

theorem splitLines_append_newline (xs ys : List Char) :
    splitLines (xs ++ '\n' :: ys) = splitLines xs ++ splitLines ys := by
  induction xs with
  | nil => simp [splitLines]
  | cons c cs ih =>
    show splitLines (c :: (cs ++ '\n' :: ys)) = _
    by_cases hc : c = '\n'
    · subst hc
      show (if ('\n' : Char) = '\n' then [] :: splitLines (cs ++ '\n' :: ys)
        else match splitLines (cs ++ '\n' :: ys) with
          | [] => [['\n']]
          | l :: ls => ('\n' :: l) :: ls) = _
      rw [if_pos rfl, ih]
      show _ = (if ('\n' : Char) = '\n' then [] :: splitLines cs
        else match splitLines cs with
          | [] => [['\n']]
          | l :: ls => ('\n' :: l) :: ls) ++ splitLines ys
      rw [if_pos rfl]
      rfl
    · show (if c = '\n' then [] :: splitLines (cs ++ '\n' :: ys)
        else match splitLines (cs ++ '\n' :: ys) with
          | [] => [[c]]
          | l :: ls => (c :: l) :: ls) = _
      rw [if_neg hc, ih]
      show _ = (if c = '\n' then [] :: splitLines cs
        else match splitLines cs with
          | [] => [[c]]
          | l :: ls => (c :: l) :: ls) ++ splitLines ys
      rw [if_neg hc]
      cases h : splitLines cs with
      | nil => exact absurd h (splitLines_ne_nil cs)
      | cons l ls => simp

theorem splitLines_of_no_newline (cs : List Char) (h : '\n' ∉ cs) :
    splitLines cs = [cs] := by
  induction cs with
  | nil => rfl
  | cons c cs ih =>
    have hc : ¬ c = '\n' := fun hh => h (hh ▸ List.mem_cons_self c cs)
    have hcs : '\n' ∉ cs := fun hh => h (List.mem_cons_of_mem c hh)
    simp only [splitLines, if_neg hc, ih hcs]

end CiBaseline

namespace CiBaseline

theorem goLines_warnings (o : String) (ls : List (List Char)) (row : Nat) :
    (goLines o ls row).2.warnings = [] := by
  induction ls generalizing row with
  | nil => rfl
  | cons l ls ih =>
    cases hl : parseLine l with
    | blank => simpa only [goLines, hl] using ih (row + 1)
    | err i k => simp [goLines, hl]
    | record r =>
      have h2 := ih (row + 1)
      simp only [goLines, hl]
      cases hg : goLines o ls (row + 1) with
      | mk rs m =>
        cases m with
        | mk e w =>
          rw [hg] at h2
          cases e with
          | none => exact h2
          | some d => exact h2

theorem goLines_records_of_error (o : String) (ls : List (List Char)) (row : Nat)
    (h : (goLines o ls row).2.error.isSome = true) : (goLines o ls row).1 = [] := by
  induction ls generalizing row with
  | nil => simp [goLines] at h
  | cons l ls ih =>
    cases hl : parseLine l with
    | blank =>
      simp only [goLines, hl] at h ⊢
      exact ih (row + 1) h
    | err i k => simp [goLines, hl]
    | record r =>
      simp only [goLines, hl] at h ⊢
      cases hg : goLines o ls (row + 1) with
      | mk rs m =>
        cases m with
        | mk e w =>
          rw [hg] at h
          cases e with
          | none => simp at h
          | some d => rfl

theorem goLines_append_of_error (o : String) (ls ls2 : List (List Char)) (row : Nat)
    (h : (goLines o ls row).2.error.isSome = true) :
    goLines o (ls ++ ls2) row = goLines o ls row := by
  induction ls generalizing row with
  | nil => simp [goLines] at h
  | cons l ls ih =>
    cases hl : parseLine l with
    | blank =>
      simp only [goLines, hl, List.cons_append, List.append_eq] at h ⊢
      exact ih (row + 1) h
    | err i k => simp [goLines, hl]
    | record r =>
      simp only [goLines, hl, List.cons_append, List.append_eq] at h ⊢
      cases hg : goLines o ls (row + 1) with
      | mk rs m =>
        cases m with
        | mk e w =>
          rw [hg] at h
          cases e with
          | none => simp at h
          | some d =>
            rw [ih (row + 1) (by rw [hg]; rfl), hg]

theorem goLines_append_empty_line (o : String) (ls : List (List Char)) (row : Nat) :
    goLines o (ls ++ [[]]) row = goLines o ls row := by
  induction ls generalizing row with
  | nil =>
    show goLines o [[]] row = goLines o [] row
    simp [goLines, parseLine, List.takeWhile, List.dropWhile]
  | cons l ls ih =>
    cases hl : parseLine l with
    | blank =>
      simp only [goLines, hl, List.cons_append, List.append_eq]
      exact ih (row + 1)
    | err i k => simp [goLines, hl]
    | record r =>
      simp only [goLines, hl, List.cons_append, List.append_eq]
      rw [ih (row + 1)]

theorem goLines_records_of_ok (o : String) (ls : List (List Char)) (row : Nat)
    (h : (goLines o ls row).2.error = none) :
    (goLines o ls row).1 = ls.filterMap lineRecord := by
  induction ls generalizing row with
  | nil => rfl
  | cons l ls ih =>
    cases hl : parseLine l with
    | blank =>
      simp only [goLines, hl, List.filterMap_cons, lineRecord] at h ⊢
      exact ih (row + 1) h
    | err i k => simp [goLines, hl] at h
    | record r =>
      simp only [goLines, hl, List.filterMap_cons, lineRecord] at h ⊢
      cases hg : goLines o ls (row + 1) with
      | mk rs m =>
        cases m with
        | mk e w =>
          rw [hg] at h
          cases e with
          | none =>
            have h2 := ih (row + 1) (by rw [hg])
            rw [hg] at h2
            simpa using h2
          | some d => simp at h

theorem goLines_error_spec (o : String) (ls : List (List Char)) (row : Nat) (e : Diag)
    (h : (goLines o ls row).2.error = some e) :
    e.origin = o ∧ ∃ j, ∃ hj : j < ls.length, e.row = row + j ∧
      lineErr (ls.get ⟨j, hj⟩) = true ∧ ∀ l ∈ ls.take j, lineErr l = false := by
  induction ls generalizing row with
  | nil => simp [goLines] at h
  | cons l ls ih =>
    cases hl : parseLine l with
    | blank =>
      simp only [goLines, hl] at h
      obtain ⟨ho, j, hj, hrow, herr, hpre⟩ := ih (row + 1) h
      refine ⟨ho, j + 1, by simpa using Nat.succ_lt_succ hj, by omega, herr, ?_⟩
      intro x hx
      rw [List.take_succ_cons] at hx
      rcases List.mem_cons.mp hx with h1 | h2
      · subst h1; simp [lineErr, hl]
      · exact hpre x h2
    | err i k =>
      simp only [goLines, hl] at h
      injection h with h
      subst h
      refine ⟨rfl, 0, by simp, by simp, ?_, by simp⟩
      simp [lineErr, hl]
    | record r =>
      simp only [goLines, hl] at h
      cases hg : goLines o ls (row + 1) with
      | mk rs m =>
        cases m with
        | mk e' w =>
          rw [hg] at h
          cases e' with
          | none => simp at h
          | some d =>
            simp only [] at h
            injection h with h
            subst h
            obtain ⟨ho, j, hj, hrow, herr, hpre⟩ := ih (row + 1) (by rw [hg])
            refine ⟨ho, j + 1, by simpa using Nat.succ_lt_succ hj, by omega, herr, ?_⟩
            intro x hx
            rw [List.take_succ_cons] at hx
            rcases List.mem_cons.mp hx with h1 | h2
            · subst h1; simp [lineErr, hl]
            · exact hpre x h2

end CiBaseline

namespace CiBaseline

theorem colStep_ge_one (c : Char) (col : Nat) : 1 ≤ colStep c col := by
  unfold colStep
  split <;> omega

theorem columnAux_ge_one (l : List Char) (i col : Nat) (h : 1 ≤ col) :
    1 ≤ columnAux l i col := by
  induction l generalizing i col with
  | nil => cases i <;> simpa [columnAux]
  | cons c cs ih =>
    cases i with
    | zero => simpa [columnAux]
    | succ n => exact ih n (colStep c col) (colStep_ge_one c col)

theorem columnAux_append (pre rest : List Char) (k col : Nat) :
    columnAux (pre ++ rest) (pre.length + k) col
      = columnAux rest k (columnAux pre pre.length col) := by
  induction pre generalizing col with
  | nil => simp [columnAux]
  | cons c cs ih =>
    have h1 : (c :: cs).length + k = (cs.length + k) + 1 := by
      simp only [List.length_cons]
      omega
    rw [List.cons_append, h1]
    show columnAux (cs ++ rest) (cs.length + k) (colStep c col) = _
    rw [ih (colStep c col)]
    rfl

theorem columnAux_no_tab (l : List Char) (i col : Nat)
    (h : ∀ c ∈ l, c ≠ '\t') (hi : i ≤ l.length) :
    columnAux l i col = col + i := by
  induction l generalizing i col with
  | nil =>
    have h0 : i = 0 := Nat.le_zero.mp hi
    subst h0
    simp [columnAux]
  | cons c cs ih =>
    cases i with
    | zero => simp [columnAux]
    | succ n =>
      show columnAux cs n (colStep c col) = col + (n + 1)
      have hc : c ≠ '\t' := h c (by simp)
      have : colStep c col = col + 1 := by simp [colStep, hc]
      rw [this, ih n (col + 1) (fun x hx => h x (by simp [hx])) (by simpa using hi)]
      omega

theorem goLines_col_ge_one (o : String) (ls : List (List Char)) (row : Nat) (e : Diag)
    (h : (goLines o ls row).2.error = some e) : 1 ≤ e.col := by
  induction ls generalizing row with
  | nil => simp [goLines] at h
  | cons l ls ih =>
    cases hl : parseLine l with
    | blank =>
      simp only [goLines, hl] at h
      exact ih (row + 1) h
    | err i k =>
      simp only [goLines, hl] at h
      injection h with h
      subst h
      exact columnAux_ge_one l i 1 le_rfl
    | record r =>
      simp only [goLines, hl] at h
      cases hg : goLines o ls (row + 1) with
      | mk rs m =>
        cases m with
        | mk e' w =>
          rw [hg] at h
          cases e' with
          | none => simp at h
          | some d =>
            simp only [] at h
            injection h with h
            subst h
            exact ih (row + 1) (by rw [hg])

/-- C8: for every input text, parsing the text and parsing the text with a
single newline appended produce identical record sequences and identical
diagnostics. -/
theorem c8_trailing_newline (text : List Char) (origin : String) :
    parse_ci_baseline (text ++ ['\n']) origin = parse_ci_baseline text origin := by
  unfold parse_ci_baseline
  have h : splitLines (text ++ ['\n']) = splitLines text ++ [[]] :=
    splitLines_append_newline text []
  rw [h]
  exact goLines_append_empty_line origin (splitLines text) 1

/-- C1: parsing is fail-fast.  Whenever the diagnostics carry a fatal error,
the record sequence is empty and the warnings are empty, and appending any
further lines after the text leaves both the (empty) records and the single
diagnostic unchanged; moreover the single diagnostic comes from the earliest
malformed line: its row points at a malformed line and every earlier line is
well-formed. -/
theorem c1_fail_fast (text : List Char) (origin : String) :
    ((parse_ci_baseline text origin).2.error.isSome = true →
        (parse_ci_baseline text origin).1 = []
      ∧ (parse_ci_baseline text origin).2.warnings = []
      ∧ ∀ rest, parse_ci_baseline (text ++ '\n' :: rest) origin
          = parse_ci_baseline text origin)
  ∧ ∀ e, (parse_ci_baseline text origin).2.error = some e →
      e.origin = origin ∧ ∃ j, ∃ hj : j < (splitLines text).length, e.row = 1 + j ∧
        lineErr ((splitLines text).get ⟨j, hj⟩) = true ∧
        ∀ l ∈ (splitLines text).take j, lineErr l = false := by
  constructor
  · intro h
    refine ⟨goLines_records_of_error _ _ _ h, goLines_warnings _ _ _, ?_⟩
    intro rest
    unfold parse_ci_baseline
    rw [splitLines_append_newline]
    exact goLines_append_of_error origin _ _ 1 h
  · intro e he
    exact goLines_error_spec origin _ 1 e he

/-- Witness for `c1_fail_fast` at the malformed input "hello" followed by a
well-formed line. -/
theorem c1_fail_fast_witness :
    (parse_ci_baseline ("hello".toList) "test").2.error.isSome = true
  ∧ (parse_ci_baseline ("hello".toList) "test").1 = []
  ∧ (parse_ci_baseline ("hello".toList) "test").2.warnings = []
  ∧ parse_ci_baseline ("hello".toList ++ '\n' :: "port:x64-windows=skip".toList) "test"
      = parse_ci_baseline ("hello".toList) "test" := by
  have h := (c1_fail_fast ("hello".toList) "test").1 (by decide)
  exact ⟨by decide, h.1, h.2.1, h.2.2 ("port:x64-windows=skip".toList)⟩

/-- C6: on a successful parse the records are exactly the per-line records
in line order (comments and blank lines contribute none, and record order
follows line order); blank lines and full-line comments never produce a
record. -/
theorem c6_comments_blanks_order (text : List Char) (origin : String)
    (h : (parse_ci_baseline text origin).2.error = none) :
    (parse_ci_baseline text origin).1 = (splitLines text).filterMap lineRecord
  ∧ ∀ l : List Char, isBlankLine l = true ∨ isCommentLine l = true →
      lineRecord l = none := by
  refine ⟨goLines_records_of_ok origin _ 1 h, ?_⟩
  intro l hl
  rcases hl with hb | hc
  · have hd : l.dropWhile isLineWs = [] := by
      rw [List.dropWhile_eq_nil_iff]
      intro x hx
      exact (List.all_eq_true.mp hb) x hx
    simp [lineRecord, parseLine, hd]
  · unfold isCommentLine at hc
    cases hd : l.dropWhile isLineWs with
    | nil => rw [hd] at hc; simp at hc
    | cons c0 r =>
      rw [hd] at hc
      simp only [] at hc
      have : c0 = '#' := by simpa using hc
      subst this
      simp [lineRecord, parseLine, hd]

/-- Witness for `c6_comments_blanks_order` on a concrete mixed input. -/
theorem c6_comments_blanks_order_witness :
    (parse_ci_baseline ("x:y=fail\n# comment\n   \nz:y=skip\n".toList) "test").2.error = none
  ∧ (parse_ci_baseline ("x:y=fail\n# comment\n   \nz:y=skip\n".toList) "test").1
      = (splitLines ("x:y=fail\n# comment\n   \nz:y=skip\n".toList)).filterMap lineRecord
  ∧ (parse_ci_baseline ("x:y=fail\n# comment\n   \nz:y=skip\n".toList) "test").1
      = [⟨"x", "y", CiBaselineState.Fail⟩, ⟨"z", "y", CiBaselineState.Skip⟩] := by
  refine ⟨by decide, (c6_comments_blanks_order _ "test" (by decide)).1, by decide⟩

end CiBaseline

namespace CiBaseline

/-- C3 counterexample: for the input consisting of three spaces, one tab and
"x64-windows:", the missing-triplet-name diagnostic is reported at column
21, not at column 17 = 16 + 1 that counting the tab as a single column
would give (the line has 16 characters and the error is past its end). -/
theorem c3_counterexample :
    (parse_ci_baseline ("   \tx64-windows:".toList) "test").2.error
      = some ⟨"test", 1, 21, ErrKind.expectedTripletName⟩
  ∧ ("   \tx64-windows:".toList).length + 1 = 17
  ∧ (21 : Nat) ≠ 17 := by
  refine ⟨by decide, by decide, by decide⟩

/-- C3 amended: every parse diagnostic reports a 1-based line number and a
1-based column; the column advances by one for every character except tab,
which advances it to the next multiple-of-8 tab stop plus one; for the input
beginning with three spaces and one tab followed by "x64-windows:" the
missing-triplet-name error is reported at column 21. -/
theorem c3_column_semantics :
    (∀ (text : List Char) (origin : String) (e : Diag),
        (parse_ci_baseline text origin).2.error = some e → 1 ≤ e.row ∧ 1 ≤ e.col)
  ∧ (∀ (pre : List Char) (c : Char) (post : List Char),
        columnOfIndex (pre ++ c :: post) (pre.length + 1)
          = colStep c (columnOfIndex (pre ++ c :: post) pre.length))
  ∧ (∀ col, colStep '\t' col = (col + 7) / 8 * 8 + 1)
  ∧ (∀ c col, c ≠ '\t' → colStep c col = col + 1)
  ∧ (parse_ci_baseline ("   \tx64-windows:".toList) "test").2.error
      = some ⟨"test", 1, 21, ErrKind.expectedTripletName⟩ := by
  refine ⟨?_, ?_, ?_, ?_, by decide⟩
  · intro text origin e he
    obtain ⟨-, j, hj, hrow, -, -⟩ := goLines_error_spec origin _ 1 e he
    exact ⟨by omega, goLines_col_ge_one origin _ 1 e he⟩
  · intro pre c post
    unfold columnOfIndex
    have h1 := columnAux_append pre (c :: post) 1 1
    have h0 := columnAux_append pre (c :: post) 0 1
    simp only [Nat.add_zero] at h0
    rw [h1, h0]
    simp [columnAux]
  · intro col
    simp [colStep]
  · intro c col hc
    simp [colStep, hc]

/-- C10 counterexample: for the input consisting of one tab and "hello" the
missing-colon diagnostic is reported at column 14, not at column 7 = 6 + 1
that one-greater-than-the-character-count would give (the line has six
characters). -/
theorem c10_counterexample :
    (parse_ci_baseline ("\thello".toList) "test").2.error
      = some ⟨"test", 1, 14, ErrKind.expectedColon⟩
  ∧ ("\thello".toList).length + 1 = 7
  ∧ (14 : Nat) ≠ 7 := by
  refine ⟨by decide, by decide, by decide⟩

/-- C10 amended: when a single-line input with no tab character ends before
a required token, the diagnostic's column is one greater than the number of
characters in the line; input "hello" reports 1:6 with expected-colon and
input "port:x64-windows" reports 1:17 with expected-equals. -/
theorem c10_eol_column :
    (∀ (cs : List Char) (origin : String) (i : Nat) (k : ErrKind),
        '\n' ∉ cs → '\t' ∉ cs → parseLine cs = .err i k → i = cs.length →
        (parse_ci_baseline cs origin).2.error = some ⟨origin, 1, cs.length + 1, k⟩)
  ∧ (parse_ci_baseline ("hello".toList) "test").2.error
      = some ⟨"test", 1, 6, ErrKind.expectedColon⟩
  ∧ (parse_ci_baseline ("port:x64-windows".toList) "test").2.error
      = some ⟨"test", 1, 17, ErrKind.expectedEquals⟩ := by
  refine ⟨?_, by decide, by decide⟩
  intro cs origin i k hnl hnt hp hi
  unfold parse_ci_baseline
  rw [splitLines_of_no_newline cs hnl]
  simp only [goLines, hp]
  subst hi
  unfold columnOfIndex
  rw [columnAux_no_tab cs cs.length 1 (fun c hc hceq => hnt (hceq ▸ hc)) le_rfl]
  have : 1 + cs.length = cs.length + 1 := by omega
  rw [this]

/-- Witness for the universal part of `c10_eol_column` at the input
"hello". -/
theorem c10_eol_column_witness :
    (parse_ci_baseline ("hello".toList) "test").2.error
      = some ⟨"test", 1, ("hello".toList).length + 1, ErrKind.expectedColon⟩ :=
  c10_eol_column.1 ("hello".toList) "test" 5 ErrKind.expectedColon
    (by decide) (by decide) (by decide) (by decide)

end CiBaseline

namespace CiBaseline

theorem specLt_irrefl (a : PackageSpec) : ¬ specLt a a := by
  unfold specLt
  rintro (h | ⟨-, h⟩) <;> exact lt_irrefl _ h

theorem specLt_ne {a b : PackageSpec} (h : specLt a b) : a ≠ b := by
  rintro rfl
  exact specLt_irrefl a h

theorem specLt_trans {a b c : PackageSpec} (h1 : specLt a b) (h2 : specLt b c) :
    specLt a c := by
  unfold specLt at *
  rcases h1 with h1 | ⟨e1, h1⟩ <;> rcases h2 with h2 | ⟨e2, h2⟩
  · exact Or.inl (lt_trans h1 h2)
  · exact Or.inl (e2 ▸ h1)
  · exact Or.inl (e1 ▸ h2)
  · exact Or.inr ⟨e1.trans e2, lt_trans h1 h2⟩

theorem specLt_total (a b : PackageSpec) (h : a ≠ b) : specLt a b ∨ specLt b a := by
  unfold specLt
  rcases lt_trichotomy a.name b.name with hn | hn | hn
  · exact Or.inl (Or.inl hn)
  · rcases lt_trichotomy a.triplet b.triplet with ht | ht | ht
    · exact Or.inl (Or.inr ⟨hn, ht⟩)
    · exact absurd (by cases a; cases b; simp_all) h
    · exact Or.inr (Or.inr ⟨hn.symm, ht⟩)
  · exact Or.inr (Or.inl hn)

theorem mem_insertStr (x y : String) (l : List String) :
    y ∈ insertStr x l ↔ y = x ∨ y ∈ l := by
  induction l with
  | nil => simp [insertStr]
  | cons a as ih =>
    unfold insertStr
    by_cases h1 : x = a
    · subst h1
      simp only [if_pos rfl]
      constructor
      · intro h; exact Or.inr h
      · rintro (rfl | h)
        · exact List.mem_cons_self _ _
        · exact h
    · rw [if_neg h1]
      by_cases h2 : x < a
      · rw [if_pos h2]
        simp [List.mem_cons]
      · rw [if_neg h2]
        simp only [List.mem_cons, ih]
        tauto

theorem pairwise_insertStr (x : String) (l : List String)
    (h : l.Pairwise (fun a b : String => a < b)) :
    (insertStr x l).Pairwise (fun a b : String => a < b) := by
  induction l with
  | nil => simp [insertStr]
  | cons a as ih =>
    rw [List.pairwise_cons] at h
    obtain ⟨ha, has⟩ := h
    unfold insertStr
    by_cases h1 : x = a
    · rw [if_pos h1]
      exact List.pairwise_cons.mpr ⟨ha, has⟩
    · rw [if_neg h1]
      by_cases h2 : x < a
      · rw [if_pos h2]
        refine List.pairwise_cons.mpr ⟨?_, List.pairwise_cons.mpr ⟨ha, has⟩⟩
        intro b hb
        rcases List.mem_cons.mp hb with rfl | hb
        · exact h2
        · exact lt_trans h2 (ha b hb)
      · rw [if_neg h2]
        have hax : a < x := by
          rcases lt_trichotomy x a with hh | hh | hh
          · exact absurd hh h2
          · exact absurd hh h1
          · exact hh
        refine List.pairwise_cons.mpr ⟨?_, ih has⟩
        intro b hb
        rcases (mem_insertStr x b as).mp hb with rfl | hb
        · exact hax
        · exact ha b hb

theorem insertStr_of_mem (x : String) (l : List String)
    (h : l.Pairwise (fun a b : String => a < b)) (hx : x ∈ l) :
    insertStr x l = l := by
  induction l with
  | nil => simp at hx
  | cons a as ih =>
    rw [List.pairwise_cons] at h
    obtain ⟨ha, has⟩ := h
    unfold insertStr
    rcases List.mem_cons.mp hx with rfl | hmem
    · rw [if_pos rfl]
    · by_cases h1 : x = a
      · rw [if_pos h1]
      · have hax : a < x := ha x hmem
        have h2 : ¬ x < a := fun hh => lt_irrefl a (lt_trans hax hh)
        rw [if_neg h1, if_neg h2, ih has hmem]

theorem mem_insertSpec (x y : PackageSpec) (l : List PackageSpec) :
    y ∈ insertSpec x l ↔ y = x ∨ y ∈ l := by
  induction l with
  | nil => simp [insertSpec]
  | cons a as ih =>
    unfold insertSpec
    by_cases h1 : x = a
    · subst h1
      simp only [if_pos rfl]
      constructor
      · intro h; exact Or.inr h
      · rintro (rfl | h)
        · exact List.mem_cons_self _ _
        · exact h
    · rw [if_neg h1]
      by_cases h2 : specLt x a
      · rw [if_pos h2]
        simp [List.mem_cons]
      · rw [if_neg h2]
        simp only [List.mem_cons, ih]
        tauto

theorem pairwise_insertSpec (x : PackageSpec) (l : List PackageSpec)
    (h : l.Pairwise specLt) : (insertSpec x l).Pairwise specLt := by
  induction l with
  | nil => simp [insertSpec]
  | cons a as ih =>
    rw [List.pairwise_cons] at h
    obtain ⟨ha, has⟩ := h
    unfold insertSpec
    by_cases h1 : x = a
    · rw [if_pos h1]
      exact List.pairwise_cons.mpr ⟨ha, has⟩
    · rw [if_neg h1]
      by_cases h2 : specLt x a
      · rw [if_pos h2]
        refine List.pairwise_cons.mpr ⟨?_, List.pairwise_cons.mpr ⟨ha, has⟩⟩
        intro b hb
        rcases List.mem_cons.mp hb with rfl | hb
        · exact h2
        · exact specLt_trans h2 (ha b hb)
      · rw [if_neg h2]
        have hax : specLt a x := by
          rcases specLt_total x a h1 with hh | hh
          · exact absurd hh h2
          · exact hh
        refine List.pairwise_cons.mpr ⟨?_, ih has⟩
        intro b hb
        rcases (mem_insertSpec x b as).mp hb with rfl | hb
        · exact hax
        · exact ha b hb

theorem mem_foldl_insertStr (ps : List String) (xs : List String) (y : String) :
    (y ∈ ps.foldl (fun a p => insertStr p a) xs) ↔ y ∈ xs ∨ y ∈ ps := by
  induction ps generalizing xs with
  | nil => simp
  | cons p ps ih =>
    rw [List.foldl_cons, ih, mem_insertStr]
    simp [List.mem_cons]
    tauto

theorem pairwise_foldl_insertStr (ps : List String) (xs : List String)
    (h : xs.Pairwise (fun a b : String => a < b)) :
    (ps.foldl (fun a p => insertStr p a) xs).Pairwise (fun a b : String => a < b) := by
  induction ps generalizing xs with
  | nil => exact h
  | cons p ps ih => exact ih _ (pairwise_insertStr p xs h)

theorem mem_foldl_insertSpec (ps : List PackageSpec) (xs : List PackageSpec)
    (y : PackageSpec) :
    (y ∈ ps.foldl (fun a p => insertSpec p a) xs) ↔ y ∈ xs ∨ y ∈ ps := by
  induction ps generalizing xs with
  | nil => simp
  | cons p ps ih =>
    rw [List.foldl_cons, ih, mem_insertSpec]
    simp [List.mem_cons]
    tauto

theorem pairwise_foldl_insertSpec (ps : List PackageSpec) (xs : List PackageSpec)
    (h : xs.Pairwise specLt) :
    (ps.foldl (fun a p => insertSpec p a) xs).Pairwise specLt := by
  induction ps generalizing xs with
  | nil => exact h
  | cons p ps ih => exact ih _ (pairwise_insertSpec p xs h)

end CiBaseline

namespace CiBaseline

theorem applySkip_skeleton (t p : String) (es : List TripletExclusions) :
    (applySkip t p es).map (fun e => e.triplet) = es.map (fun e => e.triplet) := by
  induction es with
  | nil => rfl
  | cons e es ih =>
    unfold applySkip
    by_cases h : e.triplet = t
    · rw [if_pos h]
      simp
    · rw [if_neg h]
      simpa using ih

theorem applyLine_skeleton (acc : ExclusionsMap × List PackageSpec) (l : CiBaselineLine) :
    ((applyLine acc l).1).triplets.map (fun e => e.triplet)
      = acc.1.triplets.map (fun e => e.triplet) := by
  unfold applyLine
  by_cases h : tracked acc.1 l.triplet = true
  · rw [if_pos h]
    cases l.state with
    | Fail => rfl
    | Skip => exact applySkip_skeleton l.triplet l.port_name acc.1.triplets
  · rw [if_neg h]

theorem foldl_applyLine_skeleton (lines : List CiBaselineLine)
    (acc : ExclusionsMap × List PackageSpec) :
    ((lines.foldl applyLine acc).1).triplets.map (fun e => e.triplet)
      = acc.1.triplets.map (fun e => e.triplet) := by
  induction lines generalizing acc with
  | nil => rfl
  | cons l ls ih =>
    rw [List.foldl_cons, ih (applyLine acc l)]
    exact applyLine_skeleton acc l

theorem triplet_if_update (t p : String) (e : TripletExclusions) :
    ((if e.triplet = t then { e with exclusions := insertStr p e.exclusions }
      else e) : TripletExclusions).triplet = e.triplet := by
  by_cases h : e.triplet = t <;> simp [h]

theorem tracked_eq_skeleton (m : ExclusionsMap) (t : String) :
    tracked m t = (m.triplets.map (fun e => e.triplet)).any (fun s => s = t) := by
  obtain ⟨es⟩ := m
  unfold tracked
  induction es with
  | nil => rfl
  | cons e es ih =>
    simp only [List.map_cons, List.any_cons]
    rw [← ih]

theorem tracked_eq_of_skeleton (m1 m2 : ExclusionsMap)
    (h : m1.triplets.map (fun e => e.triplet) = m2.triplets.map (fun e => e.triplet))
    (t : String) : tracked m1 t = tracked m2 t := by
  rw [tracked_eq_skeleton, tracked_eq_skeleton, h]

theorem applySkip_eq_map (t p : String) (es : List TripletExclusions)
    (hu : es.Pairwise (fun a b => a.triplet ≠ b.triplet)) :
    applySkip t p es = es.map fun e =>
      if e.triplet = t then { e with exclusions := insertStr p e.exclusions } else e := by
  induction es with
  | nil => rfl
  | cons e es ih =>
    rw [List.pairwise_cons] at hu
    obtain ⟨hhead, htail⟩ := hu
    unfold applySkip
    by_cases h : e.triplet = t
    · rw [if_pos h, List.map_cons, if_pos h]
      have hmap : es.map (fun e2 =>
          if e2.triplet = t then { e2 with exclusions := insertStr p e2.exclusions } else e2)
          = es.map id := by
        apply List.map_congr_left
        intro b hb
        have hbt : ¬ b.triplet = t := fun hh => hhead b hb (h.trans hh.symm)
        rw [if_neg hbt]
        rfl
      rw [hmap, List.map_id]
    · rw [if_neg h, List.map_cons, if_neg h, ih htail]

theorem skipPorts_cons (l : CiBaselineLine) (ls : List CiBaselineLine) (t : String) :
    skipPorts (l :: ls) t =
      if l.state = CiBaselineState.Skip ∧ l.triplet = t
      then l.port_name :: skipPorts ls t else skipPorts ls t := by
  unfold skipPorts
  rw [List.filterMap_cons]
  by_cases h : l.state = CiBaselineState.Skip ∧ l.triplet = t
  · rw [if_pos h, if_pos h]
  · rw [if_neg h, if_neg h]

theorem failSpecs_cons (l : CiBaselineLine) (ls : List CiBaselineLine)
    (es : List TripletExclusions) :
    failSpecs (l :: ls) es =
      if l.state = CiBaselineState.Fail ∧ (es.any fun e => e.triplet = l.triplet) = true
      then (⟨l.port_name, l.triplet⟩ : PackageSpec) :: failSpecs ls es
      else failSpecs ls es := by
  unfold failSpecs
  rw [List.filterMap_cons]
  by_cases h : l.state = CiBaselineState.Fail ∧ (es.any fun e => e.triplet = l.triplet) = true
  · rw [if_pos h, if_pos h]
  · rw [if_neg h, if_neg h]

theorem failSpecs_congr (ls : List CiBaselineLine) (es1 es2 : List TripletExclusions)
    (h : es1.map (fun e => e.triplet) = es2.map (fun e => e.triplet)) :
    failSpecs ls es1 = failSpecs ls es2 := by
  unfold failSpecs
  apply List.filterMap_congr
  intro l hl
  have hany : (es1.any fun e => e.triplet = l.triplet)
      = (es2.any fun e => e.triplet = l.triplet) := by
    have h1 := tracked_eq_of_skeleton ⟨es1⟩ ⟨es2⟩ h l.triplet
    simpa [tracked] using h1
  rw [hany]

theorem foldl_applyLine_eq (lines : List CiBaselineLine) :
    ∀ (es : List TripletExclusions) (fs : List PackageSpec),
    es.Pairwise (fun a b => a.triplet ≠ b.triplet) →
    lines.foldl applyLine (⟨es⟩, fs) =
      (⟨es.map fun e => { e with exclusions :=
          (skipPorts lines e.triplet).foldl (fun xs p => insertStr p xs) e.exclusions }⟩,
       (failSpecs lines es).foldl (fun s x => insertSpec x s) fs) := by
  induction lines with
  | nil =>
    intro es fs hu
    simp [skipPorts, failSpecs]
  | cons l ls ih =>
    intro es fs hu
    rw [List.foldl_cons]
    by_cases ht : tracked (⟨es⟩ : ExclusionsMap) l.triplet = true
    · cases hst : l.state with
      | Fail =>
        have happ : applyLine (⟨es⟩, fs) l
            = (⟨es⟩, insertSpec ⟨l.port_name, l.triplet⟩ fs) := by
          unfold applyLine
          rw [if_pos ht, hst]
        rw [happ, ih es _ hu]
        have hfail : failSpecs (l :: ls) es
            = (⟨l.port_name, l.triplet⟩ : PackageSpec) :: failSpecs ls es := by
          rw [failSpecs_cons, if_pos ⟨hst, by simpa [tracked] using ht⟩]
        have hskip : ∀ e ∈ es, skipPorts (l :: ls) e.triplet = skipPorts ls e.triplet := by
          intro e he
          rw [skipPorts_cons, if_neg]
          rintro ⟨hsk, -⟩
          rw [hst] at hsk
          exact CiBaselineState.noConfusion hsk
        refine congrArg₂ Prod.mk ?_ ?_
        · refine congrArg ExclusionsMap.mk (List.map_congr_left ?_)
          intro e he
          rw [hskip e he]
        · rw [hfail, List.foldl_cons]
      | Skip =>
        have happ : applyLine (⟨es⟩, fs) l
            = (⟨applySkip l.triplet l.port_name es⟩, fs) := by
          unfold applyLine
          rw [if_pos ht, hst]
        rw [happ, applySkip_eq_map _ _ _ hu]
        have hu2 : (es.map fun e =>
            if e.triplet = l.triplet then { e with exclusions := insertStr l.port_name e.exclusions } else e).Pairwise
              (fun a b => a.triplet ≠ b.triplet) := by
          rw [List.pairwise_map]
          refine hu.imp ?_
          intro a b hab
          rw [triplet_if_update, triplet_if_update]
          exact hab
        rw [ih _ fs hu2]
        have hskel : (es.map fun e =>
            if e.triplet = l.triplet then { e with exclusions := insertStr l.port_name e.exclusions } else e).map
              (fun e => e.triplet) = es.map (fun e => e.triplet) := by
          rw [List.map_map]
          apply List.map_congr_left
          intro e he
          exact triplet_if_update l.triplet l.port_name e
        refine congrArg₂ Prod.mk ?_ ?_
        · refine congrArg ExclusionsMap.mk ?_
          rw [List.map_map]
          apply List.map_congr_left
          intro e he
          simp only [Function.comp_apply]
          by_cases h1 : e.triplet = l.triplet
          · rw [if_pos h1]
            have hsp : skipPorts (l :: ls) e.triplet = l.port_name :: skipPorts ls e.triplet := by
              rw [skipPorts_cons, if_pos ⟨hst, h1.symm⟩]
            rw [hsp, List.foldl_cons]
          · rw [if_neg h1]
            have hsp : skipPorts (l :: ls) e.triplet = skipPorts ls e.triplet := by
              rw [skipPorts_cons, if_neg]
              rintro ⟨-, h2⟩
              exact h1 h2.symm
            rw [hsp]
        · have hf1 : failSpecs ls (es.map fun e =>
              if e.triplet = l.triplet then { e with exclusions := insertStr l.port_name e.exclusions } else e)
              = failSpecs ls es := failSpecs_congr ls _ _ hskel
          have hf2 : failSpecs (l :: ls) es = failSpecs ls es := by
            rw [failSpecs_cons, if_neg]
            rintro ⟨hsk, -⟩
            rw [hst] at hsk
            exact CiBaselineState.noConfusion hsk
          rw [hf1, hf2]
    · have happ : applyLine (⟨es⟩, fs) l = (⟨es⟩, fs) := by
        unfold applyLine
        rw [if_neg ht]
      rw [happ, ih es fs hu]
      have hnot : (es.any fun e => e.triplet = l.triplet) ≠ true := by
        simpa [tracked] using ht
      have hf : failSpecs (l :: ls) es = failSpecs ls es := by
        rw [failSpecs_cons, if_neg]
        rintro ⟨-, h2⟩
        exact hnot h2
      have hs : ∀ e ∈ es, skipPorts (l :: ls) e.triplet = skipPorts ls e.triplet := by
        intro e he
        rw [skipPorts_cons, if_neg]
        rintro ⟨-, h2⟩
        exact hnot (List.any_eq_true.mpr ⟨e, he, by simpa using h2.symm⟩)
      refine congrArg₂ Prod.mk ?_ ?_
      · refine congrArg ExclusionsMap.mk (List.map_congr_left ?_)
        intro e he
        rw [hs e he]
      · rw [hf]

end CiBaseline

namespace CiBaseline

/-- C5: the applier never adds, removes or reorders configuration entries of
the exclusion table (the sequence of entry triplets is preserved exactly),
and records whose configuration is untracked contribute nothing at all:
filtering them out of the input leaves both the expected-failure set and the
mutated table unchanged.  The applier is a total function, so no record can
raise an error. -/
theorem c5_frame (lines : List CiBaselineLine) (m : ExclusionsMap) :
    (parse_and_apply_ci_baseline lines m).2.triplets.map (fun e => e.triplet)
      = m.triplets.map (fun e => e.triplet)
  ∧ parse_and_apply_ci_baseline (lines.filter fun l => tracked m l.triplet) m
      = parse_and_apply_ci_baseline lines m := by
  constructor
  · unfold parse_and_apply_ci_baseline
    exact foldl_applyLine_skeleton lines (m, [])
  · unfold parse_and_apply_ci_baseline
    have key : ∀ (ls : List CiBaselineLine) (acc : ExclusionsMap × List PackageSpec),
        acc.1.triplets.map (fun e => e.triplet) = m.triplets.map (fun e => e.triplet) →
        (ls.filter fun l => tracked m l.triplet).foldl applyLine acc
          = ls.foldl applyLine acc := by
      intro ls
      induction ls with
      | nil =>
        intro acc h
        rfl
      | cons l ls ih =>
        intro acc h
        by_cases ht : tracked m l.triplet = true
        · rw [List.filter_cons, if_pos ht, List.foldl_cons, List.foldl_cons]
          apply ih
          rw [applyLine_skeleton, h]
        · rw [List.filter_cons, if_neg (by simpa using ht), List.foldl_cons]
          have hacc : applyLine acc l = acc := by
            unfold applyLine
            rw [if_neg]
            rw [tracked_eq_of_skeleton acc.1 m h]
            exact ht
          rw [hacc]
          exact ih acc h
    rw [key lines (m, []) rfl]

/-- C4: the expected-failure set returned by the applier is strictly sorted
(hence has unique elements, duplicates collapsed) and contains exactly the
pairs of Fail records whose configuration is tracked; every tracked Skip
record inserts its package into that table entry's exclusion set, which
stays sorted, and sorted-set insertion is idempotent when the package is
already present. -/
theorem c4_applier (lines : List CiBaselineLine) (m : ExclusionsMap)
    (hu : m.triplets.Pairwise (fun a b => a.triplet ≠ b.triplet))
    (hs : ∀ e ∈ m.triplets, e.exclusions.Pairwise (fun a b : String => a < b)) :
    (parse_and_apply_ci_baseline lines m).1.Pairwise specLt
  ∧ (parse_and_apply_ci_baseline lines m).1.Nodup
  ∧ (∀ s, s ∈ (parse_and_apply_ci_baseline lines m).1 ↔
        ∃ l ∈ lines, l.state = CiBaselineState.Fail ∧ tracked m l.triplet = true
          ∧ s = ⟨l.port_name, l.triplet⟩)
  ∧ (parse_and_apply_ci_baseline lines m).2.triplets.length = m.triplets.length
  ∧ (∀ j (hj : j < m.triplets.length)
        (hj2 : j < (parse_and_apply_ci_baseline lines m).2.triplets.length),
        ((parse_and_apply_ci_baseline lines m).2.triplets.get ⟨j, hj2⟩).triplet
          = (m.triplets.get ⟨j, hj⟩).triplet
      ∧ ((parse_and_apply_ci_baseline lines m).2.triplets.get ⟨j, hj2⟩).exclusions.Pairwise
          (fun a b : String => a < b)
      ∧ ∀ p, p ∈ ((parse_and_apply_ci_baseline lines m).2.triplets.get ⟨j, hj2⟩).exclusions ↔
            p ∈ (m.triplets.get ⟨j, hj⟩).exclusions
          ∨ ∃ l ∈ lines, l.state = CiBaselineState.Skip
              ∧ l.triplet = (m.triplets.get ⟨j, hj⟩).triplet ∧ p = l.port_name)
  ∧ (∀ (p : String) (xs : List String), xs.Pairwise (fun a b : String => a < b) →
        p ∈ xs → insertStr p xs = xs) := by
  obtain ⟨es⟩ := m
  have hpair : parse_and_apply_ci_baseline lines ⟨es⟩
      = ((failSpecs lines es).foldl (fun s x => insertSpec x s) [],
         ⟨es.map fun e => { e with exclusions :=
            (skipPorts lines e.triplet).foldl (fun xs p => insertStr p xs) e.exclusions }⟩) := by
    unfold parse_and_apply_ci_baseline
    rw [foldl_applyLine_eq lines es [] hu]
  rw [hpair]
  simp only []
  refine ⟨?_, ?_, ?_, ?_, ?_, ?_⟩
  · exact pairwise_foldl_insertSpec _ [] (List.Pairwise.nil)
  · exact (pairwise_foldl_insertSpec _ [] (List.Pairwise.nil)).imp fun h => specLt_ne h
  · intro s
    rw [mem_foldl_insertSpec]
    simp only [List.not_mem_nil, false_or]
    unfold failSpecs
    rw [List.mem_filterMap]
    constructor
    · rintro ⟨l, hl, hsome⟩
      by_cases hc : l.state = CiBaselineState.Fail
          ∧ (es.any fun e => e.triplet = l.triplet) = true
      · rw [if_pos hc] at hsome
        injection hsome with hsome
        exact ⟨l, hl, hc.1, by simpa [tracked] using hc.2, hsome.symm⟩
      · rw [if_neg hc] at hsome
        exact absurd hsome (by simp)
    · rintro ⟨l, hl, h1, h2, h3⟩
      refine ⟨l, hl, ?_⟩
      rw [if_pos ⟨h1, by simpa [tracked] using h2⟩, h3]
  · simp
  · intro j hj hj2
    have hget : ((es.map fun e => { e with exclusions :=
          (skipPorts lines e.triplet).foldl (fun xs p => insertStr p xs) e.exclusions }).get
            ⟨j, hj2⟩)
        = { triplet := (es.get ⟨j, hj⟩).triplet, exclusions :=
            (skipPorts lines (es.get ⟨j, hj⟩).triplet).foldl
              (fun xs p => insertStr p xs) (es.get ⟨j, hj⟩).exclusions } := by
      rw [List.get_map]
    rw [hget]
    refine ⟨rfl, ?_, ?_⟩
    · exact pairwise_foldl_insertStr _ _ (hs (es.get ⟨j, hj⟩) (List.get_mem es j hj))
    · intro p
      rw [mem_foldl_insertStr]
      apply or_congr Iff.rfl
      unfold skipPorts
      rw [List.mem_filterMap]
      constructor
      · rintro ⟨l, hl, hsome⟩
        by_cases hc : l.state = CiBaselineState.Skip ∧ l.triplet = (es.get ⟨j, hj⟩).triplet
        · rw [if_pos hc] at hsome
          injection hsome with hsome
          exact ⟨l, hl, hc.1, hc.2, hsome.symm⟩
        · rw [if_neg hc] at hsome
          exact absurd hsome (by simp)
      · rintro ⟨l, hl, h1, h2, h3⟩
        refine ⟨l, hl, ?_⟩
        rw [if_pos ⟨h1, h2⟩, h3]
  · intro p xs h1 h2
    exact insertStr_of_mem p xs h1 h2

/-- Witness for `c4_applier` on a concrete record sequence with a duplicate
Fail record, a Skip record, and an untracked Fail record. -/
theorem c4_applier_witness :
    (parse_and_apply_ci_baseline
        [⟨"x", "y", CiBaselineState.Fail⟩, ⟨"z", "y", CiBaselineState.Skip⟩,
         ⟨"x", "y", CiBaselineState.Fail⟩, ⟨"a", "w", CiBaselineState.Fail⟩]
        ⟨[⟨"y", []⟩]⟩).1.Pairwise specLt
  ∧ (parse_and_apply_ci_baseline
        [⟨"x", "y", CiBaselineState.Fail⟩, ⟨"z", "y", CiBaselineState.Skip⟩,
         ⟨"x", "y", CiBaselineState.Fail⟩, ⟨"a", "w", CiBaselineState.Fail⟩]
        ⟨[⟨"y", []⟩]⟩).1 = [⟨"x", "y"⟩]
  ∧ (parse_and_apply_ci_baseline
        [⟨"x", "y", CiBaselineState.Fail⟩, ⟨"z", "y", CiBaselineState.Skip⟩,
         ⟨"x", "y", CiBaselineState.Fail⟩, ⟨"a", "w", CiBaselineState.Fail⟩]
        ⟨[⟨"y", []⟩]⟩).2 = ⟨[⟨"y", ["z"]⟩]⟩ := by
  refine ⟨(c4_applier _ ⟨[⟨"y", []⟩]⟩ ?_ ?_).1, by decide, by decide⟩
  · decide
  · decide

/-- C9: the exclusion predicate holds exactly when the configuration is a
tracked entry of the table and the package is a member of that entry's
exclusion set; the predicate is a pure function of the table and performs no
mutation. -/
theorem c9_exclusion_predicate (m : ExclusionsMap) (s : PackageSpec) :
    ExclusionPredicate m s = true ↔
      ∃ e ∈ m.triplets, e.triplet = s.triplet ∧ s.name ∈ e.exclusions := by
  unfold ExclusionPredicate
  rw [List.any_eq_true]
  constructor
  · rintro ⟨e, he, hb⟩
    rw [Bool.and_eq_true] at hb
    refine ⟨e, he, by simpa using hb.1, ?_⟩
    simpa using hb.2
  · rintro ⟨e, he, h1, h2⟩
    refine ⟨e, he, ?_⟩
    rw [Bool.and_eq_true]
    exact ⟨by simpa using h1, by simpa using h2⟩

/-- Witness for `c9_exclusion_predicate` at a concrete table and spec. -/
theorem c9_exclusion_predicate_witness :
    ExclusionPredicate ⟨[⟨"y", ["z"]⟩]⟩ ⟨"z", "y"⟩ = true ↔
      ∃ e ∈ (ExclusionsMap.mk [⟨"y", ["z"]⟩]).triplets,
        e.triplet = (PackageSpec.mk "z" "y").triplet
          ∧ (PackageSpec.mk "z" "y").name ∈ e.exclusions :=
  c9_exclusion_predicate ⟨[⟨"y", ["z"]⟩]⟩ ⟨"z", "y"⟩

end CiBaseline

namespace CiBaseline

theorem validNameChars_spec (l : List Char) (h : validNameChars l = true) :
    ∃ c cs, l = c :: cs ∧ isLowerAlpha c = true ∧ ∀ x ∈ l, isIdentChar x = true := by
  cases l with
  | nil => simp [validNameChars] at h
  | cons c cs =>
    unfold validNameChars at h
    rw [Bool.and_eq_true] at h
    exact ⟨c, cs, rfl, h.1, fun x hx => List.all_eq_true.mp h.2 x hx⟩

theorem ws_not_ident (c : Char) (h : isLineWs c = true) : isIdentChar c = false := by
  have hc : c = ' ' ∨ c = '\t' := by simpa [isLineWs] using h
  rcases hc with rfl | rfl <;> decide

theorem lower_not_ws (c : Char) (h : isLowerAlpha c = true) : isLineWs c = false := by
  cases hw : isLineWs c
  · rfl
  · exfalso
    have hc : c = ' ' ∨ c = '\t' := by simpa [isLineWs] using hw
    rcases hc with rfl | rfl <;> exact absurd h (by decide)

theorem lower_ident (c : Char) (h : isLowerAlpha c = true) : isIdentChar c = true := by
  unfold isIdentChar
  rw [h]
  rfl

theorem lower_ne_hash (c : Char) (h : isLowerAlpha c = true) : ¬ c = '#' := by
  rintro rfl
  exact absurd h (by decide)

theorem ident_not_ws (c : Char) (h : isIdentChar c = true) : isLineWs c = false := by
  cases hw : isLineWs c
  · rfl
  · exfalso
    have hc : c = ' ' ∨ c = '\t' := by simpa [isLineWs] using hw
    rcases hc with rfl | rfl <;> exact absurd h (by decide)

theorem ident_ne_newline (c : Char) (h : isIdentChar c = true) : c ≠ '\n' := by
  rintro rfl
  exact absurd h (by decide)

theorem ws_ne_newline (c : Char) (h : isLineWs c = true) : c ≠ '\n' := by
  rintro rfl
  exact absurd h (by decide)

theorem takeWhile_nil_head (p : Char → Bool) (c : Char) (cs : List Char)
    (h : p c = false) : (c :: cs).takeWhile p = [] := by
  simp [List.takeWhile_cons, h]

theorem dropWhile_id_head (p : Char → Bool) (c : Char) (cs : List Char)
    (h : p c = false) : (c :: cs).dropWhile p = c :: cs := by
  simp [List.dropWhile_cons, h]

theorem parseRecordStart_run (p0 : Char) (ps r3 : List Char) (i0 : Nat)
    (hp0 : isLowerAlpha p0 = true) (hall : ∀ x ∈ p0 :: ps, isIdentChar x = true) :
    parseRecordStart i0 ((p0 :: ps) ++ ':' :: r3)
      = parseAfterColon (p0 :: ps) (i0 + (p0 :: ps).length + 1) r3 := by
  have htake : ((p0 :: ps) ++ ':' :: r3).takeWhile isIdentChar = p0 :: ps := by
    rw [takeWhile_append_of_all isIdentChar (p0 :: ps) _ hall,
      takeWhile_nil_head isIdentChar ':' r3 (by decide), List.append_nil]
  have hdrop : ((p0 :: ps) ++ ':' :: r3).dropWhile isIdentChar = ':' :: r3 := by
    rw [dropWhile_append_of_all isIdentChar (p0 :: ps) _ hall,
      dropWhile_id_head isIdentChar ':' r3 (by decide)]
  have hws1 : (':' :: r3).takeWhile isLineWs = [] :=
    takeWhile_nil_head isLineWs ':' r3 (by decide)
  have hws2 : (':' :: r3).dropWhile isLineWs = ':' :: r3 :=
    dropWhile_id_head isLineWs ':' r3 (by decide)
  simp only [parseRecordStart, htake, hdrop, hws1, hws2, hp0, not_true, List.length_nil,
    Nat.add_zero, if_false, ite_true, ite_false, eq_self_iff_true, Bool.true_eq_false,
    not_false_iff]

end CiBaseline

namespace CiBaseline

theorem parseLine_enter_record (p0 : Char) (ps rest : List Char)
    (hp0 : isLowerAlpha p0 = true) :
    parseLine ((p0 :: ps) ++ rest) = parseRecordStart 0 ((p0 :: ps) ++ rest) := by
  have hws1 : (p0 :: (ps ++ rest)).takeWhile isLineWs = [] :=
    takeWhile_nil_head isLineWs p0 _ (lower_not_ws p0 hp0)
  have hws2 : (p0 :: (ps ++ rest)).dropWhile isLineWs = p0 :: (ps ++ rest) :=
    dropWhile_id_head isLineWs p0 _ (lower_not_ws p0 hp0)
  simp only [parseLine, List.cons_append, hws1, hws2, List.length_nil,
    if_neg (lower_ne_hash p0 hp0)]

theorem parseAfterColon_run (port : List Char) (t0 : Char) (ts r7 : List Char) (i3 : Nat)
    (ht0 : isLowerAlpha t0 = true) (hall : ∀ x ∈ t0 :: ts, isIdentChar x = true) :
    parseAfterColon port i3 ((t0 :: ts) ++ '=' :: r7)
      = parseAfterEq port (t0 :: ts) (i3 + (t0 :: ts).length + 1) r7 := by
  have hws1 : ((t0 :: ts) ++ '=' :: r7).takeWhile isLineWs = [] := by
    rw [List.cons_append]
    exact takeWhile_nil_head isLineWs t0 _ (lower_not_ws t0 ht0)
  have hws2 : ((t0 :: ts) ++ '=' :: r7).dropWhile isLineWs = (t0 :: ts) ++ '=' :: r7 := by
    rw [List.cons_append]
    exact dropWhile_id_head isLineWs t0 _ (lower_not_ws t0 ht0)
  have htake : ((t0 :: ts) ++ '=' :: r7).takeWhile isIdentChar = t0 :: ts := by
    rw [takeWhile_append_of_all isIdentChar (t0 :: ts) _ hall,
      takeWhile_nil_head isIdentChar '=' r7 (by decide), List.append_nil]
  have hdrop : ((t0 :: ts) ++ '=' :: r7).dropWhile isIdentChar = '=' :: r7 := by
    rw [dropWhile_append_of_all isIdentChar (t0 :: ts) _ hall,
      dropWhile_id_head isIdentChar '=' r7 (by decide)]
  have hws3 : ('=' :: r7).takeWhile isLineWs = [] :=
    takeWhile_nil_head isLineWs '=' r7 (by decide)
  have hws4 : ('=' :: r7).dropWhile isLineWs = '=' :: r7 :=
    dropWhile_id_head isLineWs '=' r7 (by decide)
  simp only [parseAfterColon, parseAfterTriplet, hws1, hws2, htake, hdrop, hws3, hws4,
    ht0, not_true, List.length_nil, Nat.add_zero, if_false, ite_true, ite_false,
    eq_self_iff_true, Bool.true_eq_false, not_false_iff]

theorem parseAfterEq_word_err (port trip w : List Char) (i7 : Nat)
    (hw : ∀ x ∈ w, isIdentChar x = true)
    (hf : w ≠ failWord) (hs : w ≠ skipWord) :
    parseAfterEq port trip i7 w = .err i7 .expectedFailOrSkip := by
  have hws1 : w.takeWhile isLineWs = [] := by
    cases w with
    | nil => rfl
    | cons c cs => exact takeWhile_nil_head isLineWs c cs (ident_not_ws c (hw c (by simp)))
  have hws2 : w.dropWhile isLineWs = w := by
    cases w with
    | nil => rfl
    | cons c cs => exact dropWhile_id_head isLineWs c cs (ident_not_ws c (hw c (by simp)))
  have htake : w.takeWhile isIdentChar = w := List.takeWhile_eq_self_iff.mpr hw
  have hcond : ¬ (w = failWord ∨ w = skipWord) := by
    rintro (h | h)
    · exact hf h
    · exact hs h
  simp only [parseAfterEq, hws1, hws2, htake, List.length_nil, Nat.add_zero,
    if_neg hcond]

theorem parseAfterEq_trailing_err (port trip sw : List Char) (s0 : Char) (ss : List Char)
    (c : Char) (rest : List Char) (i7 : Nat)
    (hsw : sw = failWord ∨ sw = skipWord)
    (hsepw : ∀ x ∈ s0 :: ss, isLineWs x = true)
    (hc1 : isLineWs c = false) (hc2 : ¬ c = '#') :
    parseAfterEq port trip i7 (sw ++ ((s0 :: ss) ++ c :: rest))
      = .err (i7 + sw.length + (s0 :: ss).length) .unrecognizable := by
  have hs0 : isLineWs s0 = true := hsepw s0 (by simp)
  have hswident : ∀ x ∈ sw, isIdentChar x = true := by
    rcases hsw with rfl | rfl <;> decide
  obtain ⟨c0, cs0, hsw0, hc0⟩ : ∃ c0 cs0, sw = c0 :: cs0 ∧ isLineWs c0 = false := by
    rcases hsw with rfl | rfl
    · exact ⟨'f', ['a', 'i', 'l'], rfl, by decide⟩
    · exact ⟨'s', ['k', 'i', 'p'], rfl, by decide⟩
  have hws1 : (sw ++ ((s0 :: ss) ++ c :: rest)).takeWhile isLineWs = [] := by
    rw [hsw0, List.cons_append]
    exact takeWhile_nil_head isLineWs c0 _ hc0
  have hws2 : (sw ++ ((s0 :: ss) ++ c :: rest)).dropWhile isLineWs
      = sw ++ ((s0 :: ss) ++ c :: rest) := by
    rw [hsw0, List.cons_append]
    exact dropWhile_id_head isLineWs c0 _ hc0
  have htake : (sw ++ ((s0 :: ss) ++ c :: rest)).takeWhile isIdentChar = sw := by
    rw [takeWhile_append_of_all isIdentChar sw _ hswident, List.cons_append,
      takeWhile_nil_head isIdentChar s0 _ (ws_not_ident s0 hs0), List.append_nil]
  have hdrop : (sw ++ ((s0 :: ss) ++ c :: rest)).dropWhile isIdentChar
      = (s0 :: ss) ++ c :: rest := by
    rw [dropWhile_append_of_all isIdentChar sw _ hswident, List.cons_append,
      dropWhile_id_head isIdentChar s0 _ (ws_not_ident s0 hs0)]
  have hws3 : ((s0 :: ss) ++ c :: rest).takeWhile isLineWs = s0 :: ss := by
    rw [takeWhile_append_of_all isLineWs (s0 :: ss) _ hsepw,
      takeWhile_nil_head isLineWs c rest hc1, List.append_nil]
  have hws4 : ((s0 :: ss) ++ c :: rest).dropWhile isLineWs = c :: rest := by
    rw [dropWhile_append_of_all isLineWs (s0 :: ss) _ hsepw,
      dropWhile_id_head isLineWs c rest hc1]
  simp only [parseAfterEq, hws1, hws2, htake, hdrop, hws3, hws4, List.length_nil,
    Nat.add_zero, if_pos hsw, if_neg hc2]

end CiBaseline

namespace CiBaseline

/-- C7 (amended scope is the claim itself): for every record line whose
state word is any identifier token other than exactly "fail" or "skip"
(including "pass", prefix continuations such as "fails", and a missing
word), the parse fails with the expected-fail-or-skip diagnostic on that
line and returns an empty record sequence. -/
theorem c7_state_word (port trip w : List Char) (origin : String)
    (hvp : validNameChars port = true) (hvt : validNameChars trip = true)
    (hw : ∀ x ∈ w, isIdentChar x = true) (hf : w ≠ failWord) (hs : w ≠ skipWord) :
    (parse_ci_baseline (port ++ ':' :: (trip ++ '=' :: w)) origin).1 = []
  ∧ ∃ e, (parse_ci_baseline (port ++ ':' :: (trip ++ '=' :: w)) origin).2.error = some e
      ∧ e.kind = ErrKind.expectedFailOrSkip ∧ e.row = 1 := by
  obtain ⟨p0, ps, hport, hp0, hpall⟩ := validNameChars_spec port hvp
  obtain ⟨t0, ts, htrip, ht0, htall⟩ := validNameChars_spec trip hvt
  subst hport
  subst htrip
  have hpl : parseLine ((p0 :: ps) ++ ':' :: ((t0 :: ts) ++ '=' :: w))
      = LineOut.err (0 + (p0 :: ps).length + 1 + (t0 :: ts).length + 1)
          ErrKind.expectedFailOrSkip := by
    rw [parseLine_enter_record p0 ps _ hp0,
      parseRecordStart_run p0 ps _ 0 hp0 hpall,
      parseAfterColon_run _ t0 ts w _ ht0 htall,
      parseAfterEq_word_err _ _ w _ hw hf hs]
  have hnl : '\n' ∉ (p0 :: ps) ++ ':' :: ((t0 :: ts) ++ '=' :: w) := by
    intro hmem
    simp only [List.mem_append, List.mem_cons] at hmem
    rcases hmem with h | h | h | h | h
    · exact ident_ne_newline '\n' (hpall '\n' (List.mem_cons.mpr h)) rfl
    · exact absurd h (by decide)
    · exact ident_ne_newline '\n' (htall '\n' (List.mem_cons.mpr h)) rfl
    · exact absurd h (by decide)
    · exact ident_ne_newline '\n' (hw '\n' h) rfl
  have hsplit := splitLines_of_no_newline _ hnl
  have hmain : parse_ci_baseline ((p0 :: ps) ++ ':' :: ((t0 :: ts) ++ '=' :: w)) origin
      = ([], ⟨some ⟨origin, 1,
          columnOfIndex ((p0 :: ps) ++ ':' :: ((t0 :: ts) ++ '=' :: w))
            (0 + (p0 :: ps).length + 1 + (t0 :: ts).length + 1),
          ErrKind.expectedFailOrSkip⟩, []⟩) := by
    unfold parse_ci_baseline
    rw [hsplit]
    simp only [goLines, hpl]
  rw [hmain]
  exact ⟨rfl, ⟨_, rfl, rfl, rfl⟩⟩

/-- Witness for `c7_state_word` at the state word "pass". -/
theorem c7_state_word_witness :
    (parse_ci_baseline
        ("example".toList ++ ':' :: ("x64-windows".toList ++ '=' :: "pass".toList))
        "test").1 = []
  ∧ ∃ e, (parse_ci_baseline
        ("example".toList ++ ':' :: ("x64-windows".toList ++ '=' :: "pass".toList))
        "test").2.error = some e
      ∧ e.kind = ErrKind.expectedFailOrSkip ∧ e.row = 1 :=
  c7_state_word "example".toList "x64-windows".toList "pass".toList "test"
    (by decide) (by decide) (by decide) (by decide) (by decide)

/-- C2 counterexample: the record line "example:x64-windows   =    fail  #
extra stuff" carries a valid record followed by non-whitespace content (a
'#'-prefixed comment), yet the parse succeeds: the diagnostics are clean and
the record is produced, contradicting the claim that any such line fails
with the unrecognizable-baseline-entry diagnostic and an empty result.
This is the behaviour the test at src/vcpkg-test/ci-baseline.cpp:279 pins
down (the error it expects is on the second line, not this one). -/
theorem c2_counterexample :
    (parse_ci_baseline ("example:x64-windows   =    fail  # extra stuff".toList)
        "test").2.error = none
  ∧ (parse_ci_baseline ("example:x64-windows   =    fail  # extra stuff".toList)
        "test").1
      = [⟨"example", "x64-windows", CiBaselineState.Fail⟩] := by
  exact ⟨by decide, by decide⟩

/-- C2 amended: a record line consisting of a valid port:triplet=state
prefix followed by whitespace and then non-whitespace content whose first
character is not '#' (and not a newline) fails with the unrecognizable
baseline-entry diagnostic on that line and returns an empty record
sequence; a '#'-started trailing comment is instead accepted. -/
theorem c2_trailing_content (port trip sw sep : List Char) (c : Char)
    (rest : List Char) (origin : String)
    (hvp : validNameChars port = true) (hvt : validNameChars trip = true)
    (hsw : sw = failWord ∨ sw = skipWord)
    (hsep : sep ≠ []) (hsepw : ∀ x ∈ sep, isLineWs x = true)
    (hc1 : isLineWs c = false) (hc2 : ¬ c = '#') (hc3 : ¬ c = '\n')
    (hrest : '\n' ∉ rest) :
    (parse_ci_baseline (port ++ ':' :: (trip ++ '=' :: (sw ++ (sep ++ c :: rest))))
        origin).1 = []
  ∧ ∃ e, (parse_ci_baseline (port ++ ':' :: (trip ++ '=' :: (sw ++ (sep ++ c :: rest))))
        origin).2.error = some e
      ∧ e.kind = ErrKind.unrecognizable ∧ e.row = 1 := by
  obtain ⟨p0, ps, hport, hp0, hpall⟩ := validNameChars_spec port hvp
  obtain ⟨t0, ts, htrip, ht0, htall⟩ := validNameChars_spec trip hvt
  obtain ⟨s0, ss, hsep0⟩ : ∃ s0 ss, sep = s0 :: ss := by
    cases sep with
    | nil => exact absurd rfl hsep
    | cons s0 ss => exact ⟨s0, ss, rfl⟩
  subst hport
  subst htrip
  subst hsep0
  have hpl : parseLine
        ((p0 :: ps) ++ ':' :: ((t0 :: ts) ++ '=' :: (sw ++ ((s0 :: ss) ++ c :: rest))))
      = LineOut.err (0 + (p0 :: ps).length + 1 + (t0 :: ts).length + 1
            + sw.length + (s0 :: ss).length)
          ErrKind.unrecognizable := by
    rw [parseLine_enter_record p0 ps _ hp0,
      parseRecordStart_run p0 ps _ 0 hp0 hpall,
      parseAfterColon_run _ t0 ts _ _ ht0 htall,
      parseAfterEq_trailing_err _ _ sw s0 ss c rest _ hsw hsepw hc1 hc2]
  have hswn : ∀ x ∈ sw, ¬ x = '\n' := by
    rcases hsw with rfl | rfl <;> decide
  have hnl : '\n' ∉
      (p0 :: ps) ++ ':' :: ((t0 :: ts) ++ '=' :: (sw ++ ((s0 :: ss) ++ c :: rest))) := by
    intro hmem
    simp only [List.mem_append, List.mem_cons] at hmem
    rcases hmem with h | h | h | h | h | h | h | h
    · exact ident_ne_newline '\n' (hpall '\n' (List.mem_cons.mpr h)) rfl
    · exact absurd h (by decide)
    · exact ident_ne_newline '\n' (htall '\n' (List.mem_cons.mpr h)) rfl
    · exact absurd h (by decide)
    · exact hswn '\n' h rfl
    · exact ws_ne_newline '\n' (hsepw '\n' (List.mem_cons.mpr h)) rfl
    · exact hc3 h.symm
    · exact hrest h
  have hsplit := splitLines_of_no_newline _ hnl
  have hmain : parse_ci_baseline
        ((p0 :: ps) ++ ':' :: ((t0 :: ts) ++ '=' :: (sw ++ ((s0 :: ss) ++ c :: rest))))
        origin
      = ([], ⟨some ⟨origin, 1,
          columnOfIndex
            ((p0 :: ps) ++ ':' :: ((t0 :: ts) ++ '=' :: (sw ++ ((s0 :: ss) ++ c :: rest))))
            (0 + (p0 :: ps).length + 1 + (t0 :: ts).length + 1
              + sw.length + (s0 :: ss).length),
          ErrKind.unrecognizable⟩, []⟩) := by
    unfold parse_ci_baseline
    rw [hsplit]
    simp only [goLines, hpl]
  rw [hmain]
  exact ⟨rfl, ⟨_, rfl, rfl, rfl⟩⟩

/-- Witness for `c2_trailing_content` at the line
"example:x64-uwp=skip extra stuff". -/
theorem c2_trailing_content_witness :
    (parse_ci_baseline
        ("example".toList ++ ':' :: ("x64-uwp".toList
          ++ '=' :: (skipWord ++ ([' '] ++ 'e' :: "xtra stuff".toList)))) "test").1 = []
  ∧ ∃ e, (parse_ci_baseline
        ("example".toList ++ ':' :: ("x64-uwp".toList
          ++ '=' :: (skipWord ++ ([' '] ++ 'e' :: "xtra stuff".toList)))) "test").2.error
      = some e ∧ e.kind = ErrKind.unrecognizable ∧ e.row = 1 :=
  c2_trailing_content "example".toList "x64-uwp".toList skipWord [' '] 'e'
    "xtra stuff".toList "test" (by decide) (by decide) (Or.inr rfl) (by decide)
    (by decide) (by decide) (by decide) (by decide) (by decide)

end CiBaseline

namespace CiBaseline

/-- Witness for the universal part of `c3_column_semantics` at the
tab-containing input. -/
theorem c3_column_semantics_witness :
    1 ≤ (Diag.mk "test" 1 21 ErrKind.expectedTripletName).row
  ∧ 1 ≤ (Diag.mk "test" 1 21 ErrKind.expectedTripletName).col :=
  c3_column_semantics.1 ("   \tx64-windows:".toList) "test"
    ⟨"test", 1, 21, ErrKind.expectedTripletName⟩ (by decide)

end CiBaseline
